import Mathlib

/-!
Verification of the scalar and point utilities of `schnorrkel` (`src/util.rs`)
against its natural-language specification.

The byte-level cofactor shifts are embedded directly from the Rust source,
operating on lists of naturals that stand for `u8` values (little-endian,
index 0 = least significant byte), with `u8` wrap-around made explicit as
`% 256`.  Functions of the external `curve25519-dalek` library (scalars,
points, the extendable-output hash) are out of scope of the repository and
are modelled from the specification; each such definition carries a
`Modelled from the spec:` doc comment.
-/

namespace Schnorrkel

/-- Little-endian value of a byte buffer: index 0 is the least significant
byte, as `src/util.rs` documents for the 32-byte scalar encoding. -/
def bytesToNat : List Nat → Nat
  | [] => 0
  | b :: rest => b + 256 * bytesToNat rest

/-- Big-endian value of a byte buffer: the head is the most significant
byte.  Used to describe the reversed sweep of
`divide_scalar_bytes_by_cofactor`. -/
def beVal : List Nat → Nat
  | [] => 0
  | b :: rest => b * 2 ^ (8 * rest.length) + beVal rest

/-- One sweep of `multiply_scalar_bytes_by_cofactor` over the bytes, least
significant first, threading the 3-bit carry `high`.  Each byte `i` is
updated by `let r = *i & 0b11100000; *i <<= 3; *i += high; high = r >> 5`,
with the `u8` truncation of `<<=` and the wrap-around of `+=` written as
`% 256`. -/
def multiplyBytesAux : Nat → List Nat → List Nat
  | _, [] => []
  | high, i :: rest =>
    let r := i &&& 224
    ((i <<< 3) % 256 + high) % 256 :: multiplyBytesAux (r >>> 5) rest

/-- Function `multiply_scalar_bytes_by_cofactor` from `src/util.rs`: in-place
left-shift of the 256-bit little-endian value by 3 bits, here as a function
from the old buffer to the new one. -/
def multiply_scalar_bytes_by_cofactor (scalar : List Nat) : List Nat :=
  multiplyBytesAux 0 scalar

/-- One sweep of `divide_scalar_bytes_by_cofactor` over the bytes, most
significant first (the Rust loop runs over `scalar.iter_mut().rev()`),
threading the carry `low`.  Each byte `i` is updated by
`let r = *i & 0b00000111; *i >>= 3; *i += low; low = r << 5`, with `u8`
wrap-around written as `% 256`. -/
def divideBytesAux : Nat → List Nat → List Nat
  | _, [] => []
  | low, i :: rest =>
    let r := i &&& 7
    (i >>> 3 + low) % 256 :: divideBytesAux ((r <<< 5) % 256) rest

/-- Function `divide_scalar_bytes_by_cofactor` from `src/util.rs`: in-place
right-shift of the 256-bit little-endian value by 3 bits.  The reversed
iteration of the source is expressed by reversing the buffer, sweeping from
the head, and reversing back. -/
def divide_scalar_bytes_by_cofactor (scalar : List Nat) : List Nat :=
  (divideBytesAux 0 scalar.reverse).reverse

/-- Modelled from the spec: `Scalar::to_bytes` of the underlying arithmetic
library "exports the scalar to its canonical byte form"; a scalar is
represented here directly by its 32 little-endian bytes, so the export is
the identity. -/
def to_bytes (s : List Nat) : List Nat := s

/-- Modelled from the spec: `Scalar::from_bits` of the underlying arithmetic
library re-wraps "the result as a Scalar without forcing canonical-range
reduction", so on the byte representation it is the identity. -/
def from_bits (x : List Nat) : List Nat := x

/-- Function `divide_scalar_by_cofactor` from `src/util.rs`. -/
def divide_scalar_by_cofactor (scalar : List Nat) : List Nat :=
  let x := to_bytes scalar
  from_bits (divide_scalar_bytes_by_cofactor x)

/-- Function `multiply_scalar_by_cofactor` from `src/util.rs`. -/
def multiply_scalar_by_cofactor (scalar : List Nat) : List Nat :=
  let x := to_bytes scalar
  from_bits (multiply_scalar_bytes_by_cofactor x)

set_option maxRecDepth 8192

/-! Byte-level arithmetic facts -/

lemma byte_and224_shift {b : Nat} (hb : b < 256) : (b &&& 224) >>> 5 = b / 32 := by
  revert hb
  revert b
  decide

lemma byte_and7 (b : Nat) : b &&& 7 = b % 8 := by
  simpa using Nat.and_pow_two_sub_one_eq_mod b 3

lemma byte_shiftLeft3_mod {b : Nat} (hb : b < 256) : (b <<< 3) % 256 = b % 32 * 8 := by
  revert hb
  revert b
  decide

lemma byte_shiftRight3 (b : Nat) : b >>> 3 = b / 8 := by
  simpa using Nat.shiftRight_eq_div_pow b 3

lemma byte_divide_carry (b : Nat) : ((b &&& 7) <<< 5) % 256 = b % 8 * 32 := by
  rw [byte_and7, Nat.shiftLeft_eq]
  have h : b % 8 < 8 := Nat.mod_lt _ (by norm_num)
  norm_num
  omega

/-! Values, lengths and bounds of the two sweeps -/

lemma multiplyBytesAux_length (high : Nat) (l : List Nat) :
    (multiplyBytesAux high l).length = l.length := by
  induction l generalizing high with
  | nil => rfl
  | cons b rest ih => simpa [multiplyBytesAux] using ih _

lemma divideBytesAux_length (low : Nat) (l : List Nat) :
    (divideBytesAux low l).length = l.length := by
  induction l generalizing low with
  | nil => rfl
  | cons b rest ih => simpa [divideBytesAux] using ih _

lemma multiplyBytesAux_mem_lt (high : Nat) (l : List Nat) :
    ∀ b ∈ multiplyBytesAux high l, b < 256 := by
  induction l generalizing high with
  | nil => intro b hmem; simp [multiplyBytesAux] at hmem
  | cons c rest ih =>
    intro b hmem
    rcases List.mem_cons.mp hmem with h | h
    · subst h; exact Nat.mod_lt _ (by norm_num)
    · exact ih _ b h

lemma divideBytesAux_mem_lt (low : Nat) (l : List Nat) :
    ∀ b ∈ divideBytesAux low l, b < 256 := by
  induction l generalizing low with
  | nil => intro b hmem; simp [divideBytesAux] at hmem
  | cons c rest ih =>
    intro b hmem
    rcases List.mem_cons.mp hmem with h | h
    · subst h; exact Nat.mod_lt _ (by norm_num)
    · exact ih _ b h

lemma chunk_mod (a m M : Nat) (ha : a < 256) (hM : 0 < M) :
    (a + 256 * m) % (256 * M) = a + 256 * (m % M) := by
  have h1 : a + 256 * m = a + 256 * (m % M) + 256 * M * (m / M) := by
    conv_lhs => rw [show m = M * (m / M) + m % M from (Nat.div_add_mod m M).symm]
    ring
  rw [h1, Nat.add_mul_mod_self_left, Nat.mod_eq_of_lt]
  have h2 : m % M < M := Nat.mod_lt _ hM
  omega

lemma multiplyBytesAux_val (l : List Nat) (high : Nat) (hb : ∀ b ∈ l, b < 256)
    (hh : high < 8) :
    bytesToNat (multiplyBytesAux high l) = (bytesToNat l * 8 + high) % 2 ^ (8 * l.length) := by
  induction l generalizing high with
  | nil => simp [multiplyBytesAux, bytesToNat, Nat.mod_one]
  | cons b rest ih =>
    have hb0 : b < 256 := hb b (List.mem_cons_self b rest)
    have hrest : ∀ x ∈ rest, x < 256 := fun x hx => hb x (List.mem_cons_of_mem _ hx)
    have hcar : b / 32 < 8 := by omega
    have hih := ih (b / 32) hrest hcar
    show ((b <<< 3) % 256 + high) % 256 + 256 * bytesToNat (multiplyBytesAux ((b &&& 224) >>> 5) rest)
        = (bytesToNat (b :: rest) * 8 + high) % 2 ^ (8 * (b :: rest).length)
    rw [byte_and224_shift hb0, hih, byte_shiftLeft3_mod hb0, bytesToNat]
    have hsmall : b % 32 * 8 + high < 256 := by omega
    rw [Nat.mod_eq_of_lt hsmall]
    have hpow : 2 ^ (8 * (b :: rest).length) = 256 * 2 ^ (8 * rest.length) := by
      rw [List.length_cons, Nat.mul_add, pow_add]
      ring
    have harg : (b + 256 * bytesToNat rest) * 8 + high
        = b % 32 * 8 + high + 256 * (bytesToNat rest * 8 + b / 32) := by omega
    rw [hpow, harg, chunk_mod _ _ _ hsmall (Nat.two_pow_pos _)]

lemma div8_decomp (b C P : Nat) :
    (b * (256 * P) + C) / 8 = b / 8 * (256 * P) + b % 8 * (32 * P) + C / 8 := by
  have harg : b * (256 * P) + C
      = 8 * (b / 8 * (256 * P)) + (8 * (b % 8 * (32 * P)) + C) := by
    conv_lhs => rw [show b = 8 * (b / 8) + b % 8 from (Nat.div_add_mod b 8).symm]
    ring
  rw [harg, Nat.mul_add_div (by norm_num), Nat.mul_add_div (by norm_num), Nat.add_assoc]

lemma divideBytesAux_val (rest : List Nat) (b low : Nat)
    (hb : ∀ x ∈ b :: rest, x < 256) (hlow : low ≤ 224) :
    beVal (divideBytesAux low (b :: rest))
      = beVal (b :: rest) / 8 + low * 2 ^ (8 * rest.length) := by
  induction rest generalizing b low with
  | nil =>
    have hb0 : b < 256 := hb b (List.mem_cons_self b [])
    show (b >>> 3 + low) % 256 * 2 ^ (8 * ([] : List Nat).length) + 0
        = (b * 2 ^ (8 * ([] : List Nat).length) + 0) / 8 + low * 2 ^ (8 * ([] : List Nat).length)
    rw [byte_shiftRight3]
    have hdiv : b / 8 < 32 := by omega
    simp [Nat.mod_eq_of_lt (show b / 8 + low < 256 by omega)]
  | cons c rest2 ih =>
    have hb0 : b < 256 := hb b (List.mem_cons_self b _)
    have htail : ∀ x ∈ c :: rest2, x < 256 := fun x hx => hb x (List.mem_cons_of_mem _ hx)
    have hcarry : b % 8 * 32 ≤ 224 := by omega
    have hstep : divideBytesAux low (b :: c :: rest2)
        = (b >>> 3 + low) % 256 :: divideBytesAux (((b &&& 7) <<< 5) % 256) (c :: rest2) := rfl
    have hbe : beVal (divideBytesAux low (b :: c :: rest2))
        = (b >>> 3 + low) % 256 * 2 ^ (8 * (c :: rest2).length)
          + beVal (divideBytesAux (((b &&& 7) <<< 5) % 256) (c :: rest2)) := by
      rw [hstep]
      show (b >>> 3 + low) % 256
            * 2 ^ (8 * (divideBytesAux (((b &&& 7) <<< 5) % 256) (c :: rest2)).length)
          + beVal (divideBytesAux (((b &&& 7) <<< 5) % 256) (c :: rest2)) = _
      rw [divideBytesAux_length]
    rw [hbe, byte_divide_carry, byte_shiftRight3, ih c (b % 8 * 32) htail hcarry,
      Nat.mod_eq_of_lt (show b / 8 + low < 256 by omega)]
    have hpow : 2 ^ (8 * (c :: rest2).length) = 256 * 2 ^ (8 * rest2.length) := by
      rw [List.length_cons, show 8 * (rest2.length + 1) = 8 * rest2.length + 8 from by ring,
        pow_add]
      ring
    have hbv : beVal (b :: c :: rest2)
        = b * 2 ^ (8 * (c :: rest2).length) + beVal (c :: rest2) := rfl
    rw [hbv, hpow, div8_decomp]
    ring

lemma divideBytesAux_zero_val (l : List Nat) (hb : ∀ x ∈ l, x < 256) :
    beVal (divideBytesAux 0 l) = beVal l / 8 := by
  cases l with
  | nil => simp [divideBytesAux, beVal]
  | cons b rest => simpa using divideBytesAux_val rest b 0 hb (by omega)

lemma beVal_append (u v : List Nat) :
    beVal (u ++ v) = beVal u * 2 ^ (8 * v.length) + beVal v := by
  induction u with
  | nil => simp [beVal]
  | cons b u2 ih =>
    show b * 2 ^ (8 * (u2 ++ v).length) + beVal (u2 ++ v)
        = (b * 2 ^ (8 * u2.length) + beVal u2) * 2 ^ (8 * v.length) + beVal v
    rw [ih, List.length_append, Nat.mul_add, pow_add]
    ring

lemma bytesToNat_eq_beVal_reverse (l : List Nat) : bytesToNat l = beVal l.reverse := by
  induction l with
  | nil => rfl
  | cons b rest ih =>
    rw [List.reverse_cons, beVal_append, ← ih]
    show b + 256 * bytesToNat rest = bytesToNat rest * 2 ^ (8 * [b].length) + beVal [b]
    simp only [List.length_singleton, beVal, List.length_nil, Nat.mul_zero, pow_zero,
      Nat.mul_one, Nat.add_zero, Nat.mul_one]
    norm_num
    ring

lemma bytesToNat_append (u v : List Nat) :
    bytesToNat (u ++ v) = bytesToNat u + 2 ^ (8 * u.length) * bytesToNat v := by
  induction u with
  | nil => simp [bytesToNat]
  | cons b u2 ih =>
    show b + 256 * bytesToNat (u2 ++ v)
        = b + 256 * bytesToNat u2 + 2 ^ (8 * (b :: u2).length) * bytesToNat v
    rw [ih, List.length_cons, show 8 * (u2.length + 1) = 8 * u2.length + 8 from by ring,
      pow_add]
    ring

lemma bytesToNat_lt (l : List Nat) (hb : ∀ b ∈ l, b < 256) :
    bytesToNat l < 2 ^ (8 * l.length) := by
  induction l with
  | nil => simp [bytesToNat]
  | cons b rest ih =>
    have hb0 : b < 256 := hb b (List.mem_cons_self b rest)
    have hrest := ih fun x hx => hb x (List.mem_cons_of_mem _ hx)
    show b + 256 * bytesToNat rest < 2 ^ (8 * (b :: rest).length)
    rw [List.length_cons, Nat.mul_add, pow_add, show (2 : Nat) ^ (8 * 1) = 256 by norm_num]
    omega

lemma bytesToNat_inj (u : List Nat) :
    ∀ v : List Nat, u.length = v.length → (∀ b ∈ u, b < 256) → (∀ b ∈ v, b < 256) →
      bytesToNat u = bytesToNat v → u = v := by
  induction u with
  | nil =>
    intro v hlen _ _ _
    exact (List.length_eq_zero.mp hlen.symm).symm
  | cons b u2 ih =>
    intro v hlen hu hv hval
    cases v with
    | nil => simp at hlen
    | cons c v2 =>
      have hb0 : b < 256 := hu b (List.mem_cons_self b u2)
      have hc0 : c < 256 := hv c (List.mem_cons_self c v2)
      have hval2 : b + 256 * bytesToNat u2 = c + 256 * bytesToNat v2 := hval
      have hhead : b = c := by omega
      have htail : bytesToNat u2 = bytesToNat v2 := by omega
      have := ih v2 (by simpa using hlen)
        (fun x hx => hu x (List.mem_cons_of_mem _ hx))
        (fun x hx => hv x (List.mem_cons_of_mem _ hx)) htail
      rw [hhead, this]

/-! Behaviour of the exported byte-shift functions -/

lemma multiply_bytes_val (x : List Nat) (hb : ∀ b ∈ x, b < 256) :
    bytesToNat (multiply_scalar_bytes_by_cofactor x)
      = bytesToNat x * 8 % 2 ^ (8 * x.length) := by
  simpa using multiplyBytesAux_val x 0 hb (by norm_num)

lemma divide_bytes_val (x : List Nat) (hb : ∀ b ∈ x, b < 256) :
    bytesToNat (divide_scalar_bytes_by_cofactor x) = bytesToNat x / 8 := by
  unfold divide_scalar_bytes_by_cofactor
  rw [bytesToNat_eq_beVal_reverse, List.reverse_reverse,
    divideBytesAux_zero_val x.reverse (by simpa using hb), ← List.reverse_reverse x,
    ← bytesToNat_eq_beVal_reverse, List.reverse_reverse]

lemma multiply_bytes_length (x : List Nat) :
    (multiply_scalar_bytes_by_cofactor x).length = x.length :=
  multiplyBytesAux_length 0 x

lemma divide_bytes_length (x : List Nat) :
    (divide_scalar_bytes_by_cofactor x).length = x.length := by
  unfold divide_scalar_bytes_by_cofactor
  rw [List.length_reverse, divideBytesAux_length, List.length_reverse]

lemma multiply_bytes_mem_lt (x : List Nat) :
    ∀ b ∈ multiply_scalar_bytes_by_cofactor x, b < 256 :=
  multiplyBytesAux_mem_lt 0 x

lemma divide_bytes_mem_lt (x : List Nat) :
    ∀ b ∈ divide_scalar_bytes_by_cofactor x, b < 256 := by
  intro b hmem
  exact divideBytesAux_mem_lt 0 x.reverse b (List.mem_reverse.mp hmem)

/-! Claim theorems for the byte-shift functions -/

/-- C2: for every 32-byte buffer, `multiply_scalar_bytes_by_cofactor` turns the
buffer holding the 256-bit little-endian integer `x` into the buffer holding
`(x * 8) mod 2^256`; the 3 bits shifted out at the top are discarded. -/
theorem multiply_scalar_bytes_by_cofactor_spec (x : List Nat) (hlen : x.length = 32)
    (hb : ∀ b ∈ x, b < 256) :
    bytesToNat (multiply_scalar_bytes_by_cofactor x) = bytesToNat x * 8 % 2 ^ 256 := by
  rw [multiply_bytes_val x hb, hlen]

theorem multiply_scalar_bytes_by_cofactor_spec_w :
    bytesToNat (multiply_scalar_bytes_by_cofactor (List.replicate 32 255))
      = bytesToNat (List.replicate 32 255) * 8 % 2 ^ 256 :=
  multiply_scalar_bytes_by_cofactor_spec (List.replicate 32 255) (by decide) (by decide)

/-- C3: for every 32-byte buffer, `divide_scalar_bytes_by_cofactor` turns the
buffer holding the 256-bit little-endian integer `x` into the buffer holding
`floor(x / 8)`; the 3 bits shifted out at the bottom are discarded. -/
theorem divide_scalar_bytes_by_cofactor_spec (x : List Nat) (hlen : x.length = 32)
    (hb : ∀ b ∈ x, b < 256) :
    bytesToNat (divide_scalar_bytes_by_cofactor x) = bytesToNat x / 8 :=
  divide_bytes_val x hb

theorem divide_scalar_bytes_by_cofactor_spec_w :
    bytesToNat (divide_scalar_bytes_by_cofactor (List.replicate 32 255))
      = bytesToNat (List.replicate 32 255) / 8 :=
  divide_scalar_bytes_by_cofactor_spec (List.replicate 32 255) (by decide) (by decide)

/-! The round-trip characterizations -/

lemma byte_high_bits_zero {b : Nat} (hb : b < 256) : b &&& 224 = 0 ↔ b < 32 := by
  revert hb
  revert b
  decide

lemma top_byte_lt (x : List Nat) (hlen : x.length = 32) (hb : ∀ b ∈ x, b < 256) :
    bytesToNat x < 2 ^ 253 ↔ x.getD 31 0 < 32 := by
  rcases List.eq_nil_or_concat x with h | ⟨y, b, h⟩
  · rw [h] at hlen
    simp at hlen
  · rw [List.concat_eq_append] at h
    subst h
    have hy : y.length = 31 := by simpa using hlen
    have hb0 : b < 256 := hb b (List.mem_append_right _ (List.mem_singleton.mpr rfl))
    have hgd : (y ++ [b]).getD 31 0 = b := by
      rw [List.getD_eq_getElem?_getD, List.getElem?_append_right (by omega), hy]
      simp
    have hval : bytesToNat (y ++ [b]) = bytesToNat y + 2 ^ 248 * b := by
      rw [bytesToNat_append, hy]
      norm_num [bytesToNat]
    have hylt : bytesToNat y < 2 ^ 248 := by
      have h2 := bytesToNat_lt y fun c hc => hb c (List.mem_append_left _ hc)
      rwa [hy] at h2
    have hpows : (2 : Nat) ^ 253 = 32 * 2 ^ 248 := by
      rw [show (253 : Nat) = 5 + 248 from rfl, pow_add]
      norm_num
    rw [hgd, hval]
    omega

lemma bot_byte_mod (x : List Nat) (hlen : x.length = 32) :
    bytesToNat x % 8 = x.getD 0 0 % 8 := by
  cases x with
  | nil => simp at hlen
  | cons b rest =>
    show (b + 256 * bytesToNat rest) % 8 = b % 8
    omega

/-- C4: `multiply_scalar_bytes_by_cofactor` followed by
`divide_scalar_bytes_by_cofactor` restores the 32-byte buffer exactly if and
only if the high 3 bits of byte 31 are zero. -/
theorem multiply_then_divide_roundtrip (x : List Nat) (hlen : x.length = 32)
    (hb : ∀ b ∈ x, b < 256) :
    divide_scalar_bytes_by_cofactor (multiply_scalar_bytes_by_cofactor x) = x
      ↔ x.getD 31 0 &&& 224 = 0 := by
  have h31 : (31 : Nat) < x.length := by omega
  have hx31 : x.getD 31 0 = x[31] := by
    rw [List.getD_eq_getElem?_getD, List.getElem?_eq_getElem h31]
    rfl
  have hb31 : x.getD 31 0 < 256 := hx31 ▸ hb _ (List.getElem_mem h31)
  have hval : bytesToNat (divide_scalar_bytes_by_cofactor (multiply_scalar_bytes_by_cofactor x))
      = bytesToNat x * 8 % 2 ^ 256 / 8 := by
    rw [divide_bytes_val _ (multiply_bytes_mem_lt x), multiply_bytes_val x hb, hlen]
  have hpow2 : (2 : Nat) ^ 256 = 8 * 2 ^ 253 := by
    rw [show (256 : Nat) = 3 + 253 from rfl, pow_add]
    norm_num
  rw [byte_high_bits_zero hb31, ← top_byte_lt x hlen hb]
  constructor
  · intro heq
    have hv := congrArg bytesToNat heq
    rw [hval] at hv
    have h1 : bytesToNat x * 8 % 2 ^ 256 < 2 ^ 256 := Nat.mod_lt _ (by positivity)
    omega
  · intro hlt
    have hxlt : bytesToNat x * 8 < 2 ^ 256 := by omega
    have hveq : bytesToNat (divide_scalar_bytes_by_cofactor (multiply_scalar_bytes_by_cofactor x))
        = bytesToNat x := by
      rw [hval, Nat.mod_eq_of_lt hxlt, Nat.mul_div_cancel _ (by norm_num)]
    refine bytesToNat_inj _ x ?_ ?_ hb hveq
    · rw [divide_bytes_length, multiply_bytes_length]
    · exact divide_bytes_mem_lt _

theorem multiply_then_divide_roundtrip_w :
    (divide_scalar_bytes_by_cofactor (multiply_scalar_bytes_by_cofactor
        (List.replicate 31 0 ++ [31])) = List.replicate 31 0 ++ [31]
      ↔ (List.replicate 31 0 ++ [31]).getD 31 0 &&& 224 = 0) ∧
    (divide_scalar_bytes_by_cofactor (multiply_scalar_bytes_by_cofactor
        (List.replicate 31 0 ++ [32])) = List.replicate 31 0 ++ [32]
      ↔ (List.replicate 31 0 ++ [32]).getD 31 0 &&& 224 = 0) :=
  ⟨multiply_then_divide_roundtrip (List.replicate 31 0 ++ [31]) (by decide) (by decide),
   multiply_then_divide_roundtrip (List.replicate 31 0 ++ [32]) (by decide) (by decide)⟩

/-- C5: `divide_scalar_bytes_by_cofactor` followed by
`multiply_scalar_bytes_by_cofactor` restores the 32-byte buffer exactly if and
only if the low 3 bits of byte 0 are zero. -/
theorem divide_then_multiply_roundtrip (x : List Nat) (hlen : x.length = 32)
    (hb : ∀ b ∈ x, b < 256) :
    multiply_scalar_bytes_by_cofactor (divide_scalar_bytes_by_cofactor x) = x
      ↔ x.getD 0 0 &&& 7 = 0 := by
  have hxlt : bytesToNat x < 2 ^ 256 := by
    have h2 := bytesToNat_lt x hb
    rwa [hlen] at h2
  have hval : bytesToNat (multiply_scalar_bytes_by_cofactor (divide_scalar_bytes_by_cofactor x))
      = bytesToNat x / 8 * 8 % 2 ^ 256 := by
    rw [multiply_bytes_val _ (divide_bytes_mem_lt x), divide_bytes_length, hlen,
      divide_bytes_val x hb]
  have hdrop : bytesToNat x / 8 * 8 % 2 ^ 256 = bytesToNat x - bytesToNat x % 8 := by
    rw [Nat.mod_eq_of_lt (by omega)]
    omega
  rw [byte_and7, ← bot_byte_mod x hlen]
  constructor
  · intro heq
    have hv := congrArg bytesToNat heq
    rw [hval, hdrop] at hv
    omega
  · intro hmod
    have hveq : bytesToNat (multiply_scalar_bytes_by_cofactor (divide_scalar_bytes_by_cofactor x))
        = bytesToNat x := by
      rw [hval, hdrop]
      omega
    refine bytesToNat_inj _ x ?_ ?_ hb hveq
    · rw [multiply_bytes_length, divide_bytes_length]
    · exact multiply_bytes_mem_lt _

theorem divide_then_multiply_roundtrip_w :
    (multiply_scalar_bytes_by_cofactor (divide_scalar_bytes_by_cofactor
        (248 :: List.replicate 31 0)) = 248 :: List.replicate 31 0
      ↔ (248 :: List.replicate 31 0).getD 0 0 &&& 7 = 0) ∧
    (multiply_scalar_bytes_by_cofactor (divide_scalar_bytes_by_cofactor
        (249 :: List.replicate 31 0)) = 249 :: List.replicate 31 0
      ↔ (249 :: List.replicate 31 0).getD 0 0 &&& 7 = 0) :=
  ⟨divide_then_multiply_roundtrip (248 :: List.replicate 31 0) (by decide) (by decide),
   divide_then_multiply_roundtrip (249 :: List.replicate 31 0) (by decide) (by decide)⟩

/-! Panic-freedom of the two sweeps

The sweeps above use the release-mode wrapping semantics of `u8` addition.
The checked variants below return `none` exactly where debug-mode Rust would
panic on an overflowing `+=`; proving they always return the wrapping result
shows the additions never wrap. -/

/-- Variant of `multiply_scalar_bytes_by_cofactor` with the `*i += high` addition
checked: `none` models a debug-mode overflow panic. -/
def multiplyBytesChecked : Nat → List Nat → Option (List Nat)
  | _, [] => some []
  | high, i :: rest =>
    let r := i &&& 224
    let shifted := (i <<< 3) % 256
    if 256 ≤ shifted + high then none
    else (multiplyBytesChecked (r >>> 5) rest).map fun l => (shifted + high) :: l

/-- Variant of `divide_scalar_bytes_by_cofactor` with the `*i += low` addition checked:
`none` models a debug-mode overflow panic. -/
def divideBytesChecked : Nat → List Nat → Option (List Nat)
  | _, [] => some []
  | low, i :: rest =>
    let r := i &&& 7
    let shifted := i >>> 3
    if 256 ≤ shifted + low then none
    else (divideBytesChecked ((r <<< 5) % 256) rest).map fun l => (shifted + low) :: l

def multiply_bytes_checked (scalar : List Nat) : Option (List Nat) :=
  multiplyBytesChecked 0 scalar

def divide_bytes_checked (scalar : List Nat) : Option (List Nat) :=
  (divideBytesChecked 0 scalar.reverse).map List.reverse

lemma multiplyBytesChecked_eq (l : List Nat) (high : Nat) (hb : ∀ b ∈ l, b < 256)
    (hh : high < 8) :
    multiplyBytesChecked high l = some (multiplyBytesAux high l) := by
  induction l generalizing high with
  | nil => rfl
  | cons b rest ih =>
    have hb0 : b < 256 := hb b (List.mem_cons_self b rest)
    have hrest : ∀ x ∈ rest, x < 256 := fun x hx => hb x (List.mem_cons_of_mem _ hx)
    have hsh : (b <<< 3) % 256 = b % 32 * 8 := byte_shiftLeft3_mod hb0
    have hnowrap : (b <<< 3) % 256 + high < 256 := by omega
    have hcar : (b &&& 224) >>> 5 < 8 := by
      rw [byte_and224_shift hb0]
      omega
    show (if 256 ≤ (b <<< 3) % 256 + high then none
        else (multiplyBytesChecked ((b &&& 224) >>> 5) rest).map
          fun l => ((b <<< 3) % 256 + high) :: l)
      = some (((b <<< 3) % 256 + high) % 256 :: multiplyBytesAux ((b &&& 224) >>> 5) rest)
    rw [if_neg (by omega), ih _ hrest hcar, Nat.mod_eq_of_lt hnowrap]
    simp

lemma divideBytesChecked_eq (l : List Nat) (low : Nat) (hb : ∀ b ∈ l, b < 256)
    (hlow : low ≤ 224) :
    divideBytesChecked low l = some (divideBytesAux low l) := by
  induction l generalizing low with
  | nil => rfl
  | cons b rest ih =>
    have hb0 : b < 256 := hb b (List.mem_cons_self b rest)
    have hrest : ∀ x ∈ rest, x < 256 := fun x hx => hb x (List.mem_cons_of_mem _ hx)
    have hsh : b >>> 3 = b / 8 := byte_shiftRight3 b
    have hnowrap : b >>> 3 + low < 256 := by omega
    have hcar : ((b &&& 7) <<< 5) % 256 ≤ 224 := by
      rw [byte_divide_carry]
      omega
    show (if 256 ≤ b >>> 3 + low then none
        else (divideBytesChecked (((b &&& 7) <<< 5) % 256) rest).map
          fun l => (b >>> 3 + low) :: l)
      = some ((b >>> 3 + low) % 256 :: divideBytesAux (((b &&& 7) <<< 5) % 256) rest)
    rw [if_neg (by omega), ih _ hrest hcar, Nat.mod_eq_of_lt hnowrap]
    simp

/-- C9: both byte-level shift functions are total and panic-free on every
32-byte buffer: the `u8` additions `*i += high` and `*i += low` never wrap,
so the checked (debug-semantics) sweeps return exactly the wrapping-semantics
results. -/
theorem shift_additions_never_wrap (x : List Nat) (hlen : x.length = 32)
    (hb : ∀ b ∈ x, b < 256) :
    multiply_bytes_checked x = some (multiply_scalar_bytes_by_cofactor x) ∧
    divide_bytes_checked x = some (divide_scalar_bytes_by_cofactor x) := by
  constructor
  · exact multiplyBytesChecked_eq x 0 hb (by norm_num)
  · unfold divide_bytes_checked divide_scalar_bytes_by_cofactor
    rw [divideBytesChecked_eq x.reverse 0 (by simpa using hb) (by norm_num)]
    simp

theorem shift_additions_never_wrap_w :
    multiply_bytes_checked (List.replicate 32 255)
        = some (multiply_scalar_bytes_by_cofactor (List.replicate 32 255)) ∧
    divide_bytes_checked (List.replicate 32 255)
        = some (divide_scalar_bytes_by_cofactor (List.replicate 32 255)) :=
  shift_additions_never_wrap (List.replicate 32 255) (by decide) (by decide)

/-! The scalar sampler -/

/-- Modelled from the spec: the "fixed prime group order L (L ≈ 2^252,
cofactor-8 curve)" of the quotient group; the standard order of the
prime-order subgroup of the cofactor-8 curve. -/
def L : Nat := 2 ^ 252 + 27742317777372353535851937790883648493

/-- Modelled from the spec: "a hash object capable of producing an extendable
(arbitrary-length) output stream", reduced to what the code consumes — the
squeezed output stream itself, byte `i` of the stream being `stream i`. -/
structure XofHash where
  stream : Nat → Nat

/-- Squeezing `n` bytes from the hash's output stream (`hash.xof_result().read`
filling an `n`-byte buffer). -/
def XofHash.read (hash : XofHash) (n : Nat) : List Nat :=
  (List.range n).map hash.stream

/-- Modelled from the spec: `Scalar::from_bytes_mod_order_wide` of the
underlying arithmetic library — "interpret them as a 512-bit little-endian
integer; reduce modulo the group order L".  The resulting canonical scalar is
represented by its integer value. -/
def from_bytes_mod_order_wide (input : List Nat) : Nat :=
  bytesToNat input % L

/-- Function `scalar_from_xof` from `src/util.rs`: squeeze exactly 64 bytes into the
output buffer and wide-reduce them. -/
def scalar_from_xof (hash : XofHash) : Nat :=
  let output := hash.read 64
  from_bytes_mod_order_wide output

/-- C7: `scalar_from_xof` squeezes exactly 64 bytes, interprets them as a
512-bit little-endian integer, and returns that integer reduced modulo the
group order L, so the output is always canonical (strictly below L). -/
theorem scalar_from_xof_spec (hash : XofHash) :
    scalar_from_xof hash = bytesToNat (hash.read 64) % L ∧ scalar_from_xof hash < L := by
  constructor
  · rfl
  · have hL : 0 < L := by
      unfold L
      positivity
    exact Nat.mod_lt _ hL

/-- C8: `scalar_from_xof` depends on nothing but the 64 squeezed bytes: two
hash objects whose streams agree on the first 64 bytes give equal scalars. -/
theorem scalar_from_xof_deterministic (h1 h2 : XofHash)
    (hsame : ∀ i < 64, h1.stream i = h2.stream i) :
    scalar_from_xof h1 = scalar_from_xof h2 := by
  have hread : h1.read 64 = h2.read 64 :=
    List.map_congr_left fun i hi => hsame i (List.mem_range.mp hi)
  show from_bytes_mod_order_wide (h1.read 64) = from_bytes_mod_order_wide (h2.read 64)
  rw [hread]

def xofA : XofHash := ⟨fun i => i % 256⟩

def xofB : XofHash := ⟨fun i => if i < 64 then i % 256 else 3⟩

theorem scalar_from_xof_deterministic_w : scalar_from_xof xofA = scalar_from_xof xofB :=
  scalar_from_xof_deterministic xofA xofB (by decide)

/-! The point-representation bridge -/

/-- Modelled from the spec: a base-curve point "forms a group of order 8·L";
since `gcd 8 L = 1` it decomposes uniquely into its component in the order-8
torsion subgroup and its component in the prime-order subgroup, which is how
the bridge's torsion-freeness test sees it. -/
structure EdwardsPoint where
  torsion : ZMod 8
  primary : ZMod L
deriving DecidableEq

/-- Modelled from the spec: `EdwardsPoint::is_torsion_free` of the underlying
curve library — whether the point "has no component in the order-8 subgroup
generated by the curve's distinguished low-order point". -/
def EdwardsPoint.is_torsion_free (p : EdwardsPoint) : Bool :=
  p.torsion = 0

/-- Error type `SignatureError` from the repository's `errors` module (not under `src/`).
Modelled from the spec: the "single error kind relevant to this core" is
`PointDecompressionError`. -/
inductive SignatureError where
  | PointDecompressionError
deriving DecidableEq

/-- Modelled from the spec: a quotient-group point "is realized by storing one
concrete representative base-curve point", and the quotient group is
"reachable only through torsion-free representatives", so the stored
representative is torsion-free; per the layout assumption of `src/util.rs`
(`RistrettoPoint` defined as `RistrettoPoint(EdwardsPoint)`) the
representation is exactly that base point. -/
def RistrettoPoint : Type :=
  {p : EdwardsPoint // p.is_torsion_free = true}

instance : DecidableEq RistrettoPoint :=
  Subtype.instDecidableEq

/-- Function `ristretto_to_edwards` from `src/util.rs`: the transmute returns the
stored representative unchanged, with no computation and no failure. -/
def ristretto_to_edwards (p : RistrettoPoint) : EdwardsPoint :=
  p.val

/-- Function `edwards_to_ristretto` from `src/util.rs`: fail with
`PointDecompressionError` unless the point is torsion-free, otherwise
reinterpret it unchanged as a quotient-group representative. -/
def edwards_to_ristretto (p : EdwardsPoint) : Except SignatureError RistrettoPoint :=
  if h : p.is_torsion_free = true then Except.ok ⟨p, h⟩
  else Except.error SignatureError.PointDecompressionError

/-- C1: `edwards_to_ristretto` returns `PointDecompressionError` exactly on
the points that are not torsion-free, and on a torsion-free point returns
`Ok` of the very same point reinterpreted as a quotient-group point, with no
arithmetic transformation of the representative. -/
theorem edwards_to_ristretto_spec (p : EdwardsPoint) :
    (edwards_to_ristretto p = Except.error SignatureError.PointDecompressionError
      ↔ p.is_torsion_free = false) ∧
    ∀ h : p.is_torsion_free = true, edwards_to_ristretto p = Except.ok ⟨p, h⟩ := by
  by_cases h : p.is_torsion_free = true
  · constructor
    · simp [edwards_to_ristretto, h]
    · intro h2
      simp [edwards_to_ristretto, h]
  · constructor
    · simp [edwards_to_ristretto, h]
    · intro h2
      exact absurd h2 h

theorem edwards_to_ristretto_spec_w :
    (edwards_to_ristretto ⟨0, 1⟩ = Except.ok ⟨⟨0, 1⟩, by decide⟩) ∧
    (edwards_to_ristretto ⟨4, 0⟩
      = Except.error SignatureError.PointDecompressionError) :=
  ⟨(edwards_to_ristretto_spec ⟨0, 1⟩).2 (by decide),
   (edwards_to_ristretto_spec ⟨4, 0⟩).1.mpr (by decide)⟩

/-- C6: for every quotient-group point `q`, converting to the base curve and
back succeeds and returns `q` itself. -/
theorem ristretto_roundtrip (q : RistrettoPoint) :
    edwards_to_ristretto (ristretto_to_edwards q) = Except.ok q := by
  show edwards_to_ristretto q.val = Except.ok q
  rw [edwards_to_ristretto, dif_pos q.property]
  exact congrArg Except.ok (Subtype.ext rfl)

/-! The scalar-level wrappers -/

/-- C10: the scalar-level wrappers round-trip on every canonical scalar: for
a scalar `s` with value below the group order L, exporting to bytes,
multiplying by the cofactor, re-wrapping, and then dividing by the cofactor
restores `s` exactly. -/
theorem scalar_cofactor_roundtrip (s : List Nat) (hlen : s.length = 32)
    (hb : ∀ b ∈ s, b < 256) (hcanon : bytesToNat s < L) :
    divide_scalar_by_cofactor (multiply_scalar_by_cofactor s) = s := by
  have hL : L < 2 ^ 253 := by
    unfold L
    norm_num
  have hpow2 : (2 : Nat) ^ 256 = 8 * 2 ^ 253 := by
    rw [show (256 : Nat) = 3 + 253 from rfl, pow_add]
    norm_num
  have hxlt : bytesToNat s * 8 < 2 ^ 256 := by omega
  show divide_scalar_bytes_by_cofactor (multiply_scalar_bytes_by_cofactor s) = s
  have hveq : bytesToNat (divide_scalar_bytes_by_cofactor (multiply_scalar_bytes_by_cofactor s))
      = bytesToNat s := by
    rw [divide_bytes_val _ (multiply_bytes_mem_lt s), multiply_bytes_val s hb, hlen,
      Nat.mod_eq_of_lt hxlt, Nat.mul_div_cancel _ (by norm_num)]
  refine bytesToNat_inj _ s ?_ ?_ hb hveq
  · rw [divide_bytes_length, multiply_bytes_length]
  · exact divide_bytes_mem_lt _

theorem scalar_cofactor_roundtrip_w :
    divide_scalar_by_cofactor (multiply_scalar_by_cofactor
        (List.replicate 31 255 ++ [15])) = List.replicate 31 255 ++ [15] :=
  scalar_cofactor_roundtrip (List.replicate 31 255 ++ [15]) (by decide) (by decide)
    (by decide)

end Schnorrkel
